import Mathlib

/-!
Verification of the CIRED alumni directory pipeline
(`2_Merge/merge.py`, `3_Clean/clean.py`, `4_Clean/clean.py`, `utils.py`).

The Python sources are shallowly embedded: vCards become a record of
optional field lists, Python strings become `String`/`List Char`, and each
Python function is translated into an executable Lean definition keeping
the source's name where possible.  Unicode-dependent steps
(`unicodedata.normalize("NFD")`, `str.lower`) are modelled for the Latin
character repertoire actually used by the repository, and are the identity
on other characters; every concrete input used in the theorems below is
within that repertoire.
-/

namespace Cired

/-- Python `\s` whitespace class, restricted to the ASCII whitespace
characters (`' '`, `\t`, `\n`, `\r`, `\x0b`, `\x0c`). -/
def pyIsWs (c : Char) : Bool :=
  c = ' ' || c = '\t' || c = '\n' || c = '\r' ||
  c = Char.ofNat 0x0b || c = Char.ofNat 0x0c

/-- Python `str.lower`, modelled for ASCII `A`–`Z` and the Latin-1
uppercase letters `À`–`Þ` (excluding `×`); identity elsewhere. -/
def pyLower (c : Char) : Char :=
  if 'A' ≤ c ∧ c ≤ 'Z' then Char.ofNat (c.toNat + 32)
  else if 0xC0 ≤ c.toNat ∧ c.toNat ≤ 0xDE ∧ c.toNat ≠ 0xD7 then
    Char.ofNat (c.toNat + 32)
  else c

/-- Model of `unicodedata.normalize("NFD", ·)` followed by dropping the combining
marks (category `Mn`), modelled character-wise for the Latin-1 accented
letters used in this repository (each decomposes into base letter plus one
combining mark, which is dropped); stand-alone combining marks are
dropped; every character below `U+0080`, and any character outside the
modelled repertoire, maps to itself. -/
def stripMarks (c : Char) : List Char :=
  if c.toNat < 0x80 then [c]
  else if 0x300 ≤ c.toNat ∧ c.toNat ≤ 0x36F then []
  else
    let n := c.toNat
    -- Latin-1 letters with a canonical decomposition: base letter table.
    if n ∈ [0xC0, 0xC1, 0xC2, 0xC3, 0xC4, 0xC5] then ['A']
    else if n = 0xC7 then ['C']
    else if n ∈ [0xC8, 0xC9, 0xCA, 0xCB] then ['E']
    else if n ∈ [0xCC, 0xCD, 0xCE, 0xCF] then ['I']
    else if n = 0xD1 then ['N']
    else if n ∈ [0xD2, 0xD3, 0xD4, 0xD5, 0xD6] then ['O']
    else if n ∈ [0xD9, 0xDA, 0xDB, 0xDC] then ['U']
    else if n = 0xDD then ['Y']
    else if n ∈ [0xE0, 0xE1, 0xE2, 0xE3, 0xE4, 0xE5] then ['a']
    else if n = 0xE7 then ['c']
    else if n ∈ [0xE8, 0xE9, 0xEA, 0xEB] then ['e']
    else if n ∈ [0xEC, 0xED, 0xEE, 0xEF] then ['i']
    else if n = 0xF1 then ['n']
    else if n ∈ [0xF2, 0xF3, 0xF4, 0xF5, 0xF6] then ['o']
    else if n ∈ [0xF9, 0xFA, 0xFB, 0xFC] then ['u']
    else if n ∈ [0xFD, 0xFF] then ['y']
    else [c]

/-- The characters kept (not replaced by a space) by
`re.sub(r"[^a-z0-9\s]", " ", name)`, apart from whitespace itself. -/
def keepChar (c : Char) : Bool :=
  ('a' ≤ c ∧ c ≤ 'z') || ('0' ≤ c ∧ c ≤ '9')

/-- One character of `re.sub(r"[^a-z0-9\s]", " ", name)`. -/
def cleanChar (c : Char) : Char :=
  if keepChar c || pyIsWs c then c else ' '

/-- Python `str.split()` (split on whitespace runs, dropping empty
parts), on a character list.  A non-whitespace character either starts a
new token (at the end, or before whitespace) or extends the first token
of the remainder's split. -/
def splitWs : List Char → List (List Char)
  | [] => []
  | c :: cs =>
    let r := splitWs cs
    if pyIsWs c then r
    else
      match cs with
      | [] => [[c]]
      | d :: _ => if pyIsWs d then [c] :: r else (c :: r.headD []) :: r.tail

/-- The character pipeline of `normalize_name`: NFD-decompose and drop
marks, lowercase, replace everything but `[a-z0-9\s]` with a space. -/
def nameChars (s : String) : List Char :=
  ((s.data.flatMap stripMarks).map pyLower).map cleanChar

/-- Tokenization `name.split()` as computed inside `normalize_name` (the intermediate
`re.sub(r"\s+", " ", name).strip()` is absorbed by `split()`). -/
def nameTokens (s : String) : List (List Char) :=
  splitWs (nameChars s)

/-- Lexicographic (code-point) strict order on character lists: the order
Python uses to compare `str` values. -/
def lexLt : List Char → List Char → Bool
  | [], [] => false
  | [], _ :: _ => true
  | _ :: _, [] => false
  | a :: as, b :: bs => if a < b then true else if b < a then false else lexLt as bs

/-- The two-form minimum computation of `normalize_name`, on the token
list: `min(form1, form2)` where form 1 reads the surname last and form 2
reads it first.  Tokens produced by `splitWs` are never empty, so the
`headD`/`getLastD` defaults are never read. -/
def normCore : List (List Char) → List Char
  | [] => []
  | [p] => p
  | parts =>
    let form1 := parts.getLastD [] ++ ' ' :: (parts.dropLast.map (fun p => p.headD ' '))
    let form2 := parts.headD [] ++ ' ' :: (parts.tail.map (fun p => p.headD ' '))
    if lexLt form2 form1 then form2 else form1

/-- Function `normalize_name` from `2_Merge/merge.py`. -/
def normalize_name (name : String) : String :=
  ⟨normCore (nameTokens name)⟩

/-- Python `str.strip()` (here only ASCII whitespace occurs). -/
def pyStrip (s : String) : String :=
  ⟨(s.data.dropWhile pyIsWs).reverse.dropWhile pyIsWs |>.reverse⟩

/-- Model of `re.sub(r"\s+", " ", s)` composed with the surrounding `strip`:
whitespace runs collapse to single spaces and the ends are trimmed,
i.e. the tokens joined by single spaces. -/
def collapseWs (s : String) : String :=
  ⟨(splitWs s.data).intersperse [' '] |>.flatten⟩

/-- Table `FN_NORMALIZATION_WHITELIST` from `2_Merge/merge.py`: raw full names
mapped to a literal string that is itself normalized to produce the key. -/
def FN_NORMALIZATION_WHITELIST : List (String × String) :=
  [("Waisman H.", "waisman henri"),
   ("Waisman H", "waisman henri"),
   ("Henri-David Waisman", "waisman henri"),
   ("Waisman Henri-David", "waisman henri"),
   ("Waisman Henri David", "waisman henri"),
   ("Olivier Pierre Sassi", "sassi olivier"),
   ("Pierre Olivier Sassi", "sassi olivier"),
   ("Sassi Olivier", "sassi olivier"),
   ("Hourcade J.C", "hourcade jean charles"),
   ("Hourcade J.C.", "hourcade jean charles"),
   ("Hourcade Jean-Charles", "hourcade jean charles"),
   ("Hourcade Jean Charles", "hourcade jean charles"),
   ("Louis-Gaëtan Giraudet", "giraudet louis gaetan"),
   ("Louis-Gaetan Giraudet", "giraudet louis gaetan"),
   ("Louis Gaetan Giraudet", "giraudet louis gaetan"),
   ("Louis Gaetan Marc Giraudet", "giraudet louis gaetan"),
   ("Franck Lecocq", "lecocq franck"),
   ("Franck Michel Lecocq", "lecocq franck"),
   ("Fisch-Romito Vivien", "vivien fisch romito"),
   ("Vivien Fisch-Romito", "vivien fisch romito")]

/-- Dictionary lookup in a whitelist (keys are pairwise distinct in the
tables above, so first-match association lookup models `dict.get`). -/
def lookupWL (tbl : List (String × String)) (k : String) : Option String :=
  (tbl.find? (fun e => e.1 = k)).map (fun e => e.2)

/-- A URL content line: its value and its `TYPE` parameter list. -/
structure UrlLine where
  value : String
  types : List String
deriving Repr, DecidableEq

/-- Shallow model of a vObject vCard as used by the pipeline: each
multi-valued field key is either absent (`none`, no such key in
`contents` / `hasattr` false) or present with its list of content-line
values; `org` values are modelled by their string form. -/
structure VCard where
  fn : Option String := none
  n : Option (List String) := none
  org : Option (List String) := none
  email : Option (List String) := none
  tel : Option (List String) := none
  source : Option (List String) := none
  url : Option (List UrlLine) := none
  note : Option (List String) := none
  history : Option (List String) := none
deriving Repr, DecidableEq

instance : Inhabited VCard := ⟨{}⟩

/-- Access `contents.get(field, [])`. -/
def getL (o : Option (List α)) : List α := o.getD []

/-- Function `normalize_fn` from `2_Merge/merge.py`: read the FN value (an absent
or unreadable FN yields `""` via the `try/except`), try the whitelist on
the raw, stripped, and whitespace-collapsed forms, then normalize. -/
def normalize_fn (vcard : VCard) : String :=
  match vcard.fn with
  | none => ""
  | some fnVal =>
    let raw := pyStrip fnVal
    let cands := [raw, pyStrip raw, collapseWs (pyStrip raw)]
    match cands.findSome? (fun cand => lookupWL FN_NORMALIZATION_WHITELIST cand) with
    | some target => normalize_name target
    | none => normalize_name raw

/-- Helper `add_unique_fields` inside `merge_vcards`: walk the field values in
arrival order, keep a value when its stripped form is non-empty and not
yet in `seen` (exact, case-sensitive string comparison), and append the
original (unstripped) value to the merged card. -/
def addUniqueList : List String → List String → List String
  | [], _ => []
  | v :: vs, seen =>
    let val := pyStrip v
    if val ≠ "" ∧ val ∉ seen then v :: addUniqueList vs (val :: seen)
    else addUniqueList vs seen

/-- The URL branch of `merge_vcards`: deduplicate by the pair
`(stripped value, tuple of TYPE parameters)`; the kept line carries the
original value and the TYPE list. -/
def mergeUrls : List UrlLine → List (String × List String) → List UrlLine
  | [], _ => []
  | u :: us, seen =>
    let val := pyStrip u.value
    let key := (val, u.types)
    if val ≠ "" ∧ key ∉ seen then u :: mergeUrls us (key :: seen)
    else mergeUrls us seen

/-- One card's contribution to the NOTE (or history) merge: keep each
stripped text that is non-empty and unseen, prefixed with its source. -/
def collectFromCard (src : String) : List String → List String → List String × List String
  | [], seen => ([], seen)
  | n :: ns, seen =>
    let note := pyStrip n
    if note ≠ "" ∧ note ∉ seen then
      let (outs, seen') := collectFromCard src ns (note :: seen)
      (("[" ++ src ++ "] " ++ note) :: outs, seen')
    else collectFromCard src ns seen

/-- The NOTE / X-CIRED-HISTORY merge of `merge_vcards`: iterate the
(card, source) pairs, attributing each first occurrence of a text. -/
def collectNotes (get : VCard → List String) : List (VCard × String) → List String → List String
  | [], _ => []
  | (c, src) :: rest, seen =>
    let (outs, seen') := collectFromCard src (get c) seen
    outs ++ collectNotes get rest seen'

/-- Call `merged.add(field)` materializes the key only when something was
added: an empty merged list means the key stays absent. -/
def optList (l : List α) : Option (List α) := if l.isEmpty then none else some l

/-- Join with `"\n"` as in `"\n".join(notes)`. -/
def joinNl (l : List String) : String := String.intercalate "\n" l

/-- Function `merge_vcards` from `2_Merge/merge.py`: FN and N are copied from the
first card when present; org/email/tel/source are merged by
`add_unique_fields`; URLs keep their TYPE parameters and deduplicate by
`(value, TYPE tuple)`; notes and histories are concatenated with source
attribution into a single field value.  `vcards` is non-empty at every
call site (groups are non-empty); the `headD` default covers the
impossible empty case. -/
def merge_vcards (vcards : List VCard) (sources : List String) : VCard :=
  let base := vcards.headD {}
  let pairs := vcards.zip sources
  let notes := collectNotes (fun c => getL c.note) pairs []
  let hists := collectNotes (fun c => getL c.history) pairs []
  { fn := base.fn
    n := base.n
    org := optList (addUniqueList (vcards.flatMap (fun c => getL c.org)) [])
    email := optList (addUniqueList (vcards.flatMap (fun c => getL c.email)) [])
    tel := optList (addUniqueList (vcards.flatMap (fun c => getL c.tel)) [])
    source := optList (addUniqueList (vcards.flatMap (fun c => getL c.source)) [])
    url := optList (mergeUrls (vcards.flatMap (fun c => getL c.url)) [])
    note := if notes.isEmpty then none else some [joinNl notes]
    history := if hists.isEmpty then none else some [joinNl hists] }

/-- One grouped entry: the normalized key, the cards of the group in
arrival order, and their sources (the two `defaultdict`s of
`group_contacts` share their keys and are modelled together). -/
abbrev GroupEntry := String × List VCard × List String

/-- Append a card and its source to its key's group; a fresh key is
appended at the end (`defaultdict` insertion order). -/
def insertGrouped (k : String) (c : VCard) (src : String) : List GroupEntry → List GroupEntry
  | [] => [(k, [c], [src])]
  | (k', cs, ss) :: rest =>
    if k' = k then (k', cs ++ [c], ss ++ [src]) :: rest
    else (k', cs, ss) :: insertGrouped k c src rest

/-- Function `group_contacts` from `2_Merge/merge.py`: group contacts and their
sources by `normalize_fn`. -/
def group_contacts (all_contacts : List VCard) (sources : List String) : List GroupEntry :=
  (all_contacts.zip sources).foldl (fun g p => insertGrouped (normalize_fn p.1) p.1 p.2 g) []

/-- The group of cards stored under a key (empty list when absent);
keys are unique in the grouped map, so the first entry wins. -/
def groupOf : List GroupEntry → String → List VCard
  | [], _ => []
  | e :: rest, k => if e.1 = k then e.2.1 else groupOf rest k

/-- Lexicographic `≤` on strings by code point, the order of Python's
`sorted` on `str`. -/
def strLe (a b : String) : Bool := !(lexLt b.data a.data)

/-- Function `merge_all_contacts` from `2_Merge/merge.py`: merge every group in
sorted key order, then sort the merged cards by the locale collation of
their FN (`locale.strxfrm` is environment data, passed in as `collate`;
cards without FN sort by `""`). -/
def merge_all_contacts (collate : String → String) (g : List GroupEntry) : List VCard :=
  let keys := (g.map (fun e => e.1)).mergeSort strLe
  let merged := keys.map (fun k =>
    match g.find? (fun e => e.1 = k) with
    | some e => merge_vcards e.2.1 e.2.2
    | none => {})
  merged.mergeSort (fun a b =>
    strLe (match a.fn with | some f => collate f | none => "")
          (match b.fn with | some f => collate f | none => ""))

/-- Result of one run of the merge entry point: whether an output file
was written, the merged contacts it contains, and the process exit
status. -/
structure MainResult where
  outputWritten : Bool
  merged : List VCard
  exitCode : Nat
deriving Repr

/-- The control flow of `main()` in `2_Merge/merge.py`, parameterized by
the already-ingested contacts and sources (ingestion is file I/O) and the
locale collation: group, merge, then write the output file —
unconditionally — and run the read-only verifiers; no branch of `main`
skips the write or exits with a non-zero status. -/
def mergeMain (collate : String → String) (all_contacts : List VCard)
    (sources : List String) : MainResult :=
  let grouped := group_contacts all_contacts sources
  let merged := merge_all_contacts collate grouped
  { outputWritten := true, merged := merged, exitCode := 0 }

/-! ### The cleaning stage, `4_Clean/clean.py` -/

/-- Test that `pat` starts the raw character list `s`. -/
def startsWithL : List Char → List Char → Bool
  | [], _ => true
  | _ :: _, [] => false
  | p :: ps, c :: cs => p = c && startsWithL ps cs

/-- Substring test (`pat in s` / `re.search` on a literal pattern). -/
def containsSub (pat s : List Char) : Bool :=
  s.tails.any (fun t => startsWithL pat t)

/-- Python `str.lower` on a whole string. -/
def pyLowerStr (s : String) : String := ⟨s.data.map pyLower⟩

/-- Function `is_obsolete_email` from `4_Clean/clean.py`.  Each domain pattern
`(@|mailto:[^\s@]*@)domain` is equivalent to the bare substring test
`"@" + domain in email` because the `mailto:` alternative ends with the
same `@domain` text; `OBSOLETE_EMAIL_DOMAINS` is a set, and with `||` the
iteration order is irrelevant. -/
def is_obsolete_email (email_value : String) : Bool :=
  let s := (pyLowerStr email_value).data
  containsSub "@cired.fr".data s ||
  containsSub "@centre-cired.fr".data s ||
  containsSub "@services.cnrs.fr".data s ||
  startsWithL "communication-cired".data s

/-- Function `remove_obsolete_emails`: drop flagged email lines (flag-then-`remove`
on distinct line objects amounts to a filter); delete the key when the
list becomes empty. -/
def remove_obsolete_emails (vcard : VCard) : VCard :=
  match vcard.email with
  | none => vcard
  | some l =>
    let l' := l.filter (fun e => !(is_obsolete_email e))
    if l' = [] then { vcard with email := none } else { vcard with email := some l' }

/-- The duplicate-removal scan shared by `deduplicate_emails` and
`deduplicate_CIRED_ORG`: flag every line whose key was seen before, then
remove the flagged line objects — net effect, keep the first line of each
key. -/
def dedupBy (key : String → String) : List String → List String → List String
  | [], _ => []
  | v :: vs, seen =>
    let k := key v
    if k ∈ seen then dedupBy key vs seen
    else v :: dedupBy key vs (k :: seen)

/-- The deduplication key of `deduplicate_emails` and
`deduplicate_CIRED_ORG`: `str(value).strip().lower()`. -/
def strippedLower (s : String) : String := pyLowerStr (pyStrip s)

/-- Function `deduplicate_emails` from `4_Clean/clean.py`. -/
def deduplicate_emails (vcard : VCard) : VCard :=
  match vcard.email with
  | none => vcard
  | some l =>
    let l' := dedupBy strippedLower l []
    if l' = [] then { vcard with email := none } else { vcard with email := some l' }

/-- The characters that terminate a URL in `find_urls`'s pattern
`https?://[^\s;,\'"<>]+`. -/
def urlStop (c : Char) : Bool :=
  pyIsWs c || c = ';' || c = ',' || c = '\'' || c = '"' || c = '<' || c = '>'

/-- Scan of `re.findall` for `find_urls`: at each position try the greedy
`https://` form, then `http://`, each requiring at least one non-stop
character after the scheme; on a match continue after it, otherwise
advance one character.  `fuel` starts at the text length; every step
consumes at least one character. -/
def findUrlsGo : Nat → List Char → List String
  | 0, _ => []
  | _ + 1, [] => []
  | fuel + 1, s@(_ :: rest) =>
    let tryScheme (scheme : List Char) : Option (List Char × List Char) :=
      if startsWithL scheme s then
        let after := s.drop scheme.length
        let run := after.takeWhile (fun x => !(urlStop x))
        if run = [] then none else some (scheme ++ run, after.drop run.length)
      else none
    match tryScheme "https://".data with
    | some (tok, rest') => (⟨tok⟩ : String) :: findUrlsGo fuel rest'
    | none =>
      match tryScheme "http://".data with
      | some (tok, rest') => (⟨tok⟩ : String) :: findUrlsGo fuel rest'
      | none => findUrlsGo fuel rest

/-- Function `find_urls` from `4_Clean/clean.py`. -/
def find_urls (text : String) : List String :=
  findUrlsGo text.data.length text.data

/-- Function `remove_dead_urls` from `4_Clean/clean.py`, parameterized by the
URL-availability check (`url_available` performs network I/O and is an
external collaborator): a URL line is flagged as soon as any URL found in
its value is unavailable; flagged lines are removed and the key is
deleted when the list becomes empty. -/
def remove_dead_urls (avail : String → Bool) (vcard : VCard) : VCard :=
  match vcard.url with
  | none => vcard
  | some l =>
    let l' := l.filter (fun u => (find_urls u.value).all avail)
    if l' = [] then { vcard with url := none } else { vcard with url := some l' }

/-- Word characters for the `\b` boundaries of `useAcronym`'s patterns,
modelled for ASCII plus the Latin letter ranges used here. -/
def isWordChar (c : Char) : Bool :=
  ('a' ≤ c ∧ c ≤ 'z') || ('A' ≤ c ∧ c ≤ 'Z') || ('0' ≤ c ∧ c ≤ '9') || c = '_' ||
  (0xC0 ≤ c.toNat ∧ c.toNat ≤ 0x17F ∧ c.toNat ≠ 0xD7 ∧ c.toNat ≠ 0xF7)

/-- Case-insensitive text match of an (already lowercase) pattern. -/
def startsWithCI : List Char → List Char → Bool
  | [], _ => true
  | _ :: _, [] => false
  | p :: ps, c :: cs => p = pyLower c && startsWithCI ps cs

/-- One `re.sub(pattern, "CIRED", s, flags=IGNORECASE)` pass for a
`\b`-delimited lowercase phrase: left-to-right, non-overlapping; `prevWord`
tracks whether the previous character of the original text was a word
character (the phrase ends in a word character, so after a replacement the
flag is true).  `fuel` starts at the text length. -/
def ciSubGo (pat : List Char) : Nat → Bool → List Char → List Char
  | 0, _, s => s
  | _ + 1, _, [] => []
  | fuel + 1, prevWord, s@(c :: rest) =>
    let after := s.drop pat.length
    let afterOk := match after with | [] => true | a :: _ => !(isWordChar a)
    if !prevWord && startsWithCI pat s && afterOk then
      "CIRED".data ++ ciSubGo pat fuel true after
    else c :: ciSubGo pat fuel (isWordChar c) rest

/-- Case-insensitive whole-word replacement of a phrase by `"CIRED"`. -/
def ciSub (pat : List Char) (s : List Char) : List Char :=
  ciSubGo pat s.length false s

/-- Match of `\s*\(\s*CIRED\s*\)\s*` at the current position, returning
the rest of the text after the (greedy) match. -/
def parenCiredMatch (s : List Char) : Option (List Char) :=
  match s.dropWhile pyIsWs with
  | '(' :: r2 =>
    let r3 := r2.dropWhile pyIsWs
    if startsWithL "CIRED".data r3 then
      match (r3.drop 5).dropWhile pyIsWs with
      | ')' :: r5 => some (r5.dropWhile pyIsWs)
      | _ => none
    else none
  | _ => none

/-- Model of `re.sub(r"\s*\(\s*CIRED\s*\)\s*", " CIRED", s)`: left-to-right scan;
every match consumes at least the literal `(CIRED)`. -/
def parenSubGo : Nat → List Char → List Char
  | 0, s => s
  | _ + 1, [] => []
  | fuel + 1, s@(c :: rest) =>
    match parenCiredMatch s with
    | some r => " CIRED".data ++ parenSubGo fuel r
    | none => c :: parenSubGo fuel rest

/-- The long institute name, with and without the accent; the source's
four patterns reduce to these two case-insensitive phrases (the
title-case variants match the same texts under `IGNORECASE`). -/
def ciredLong1 : List Char :=
  "centre international de recherche sur l'environnement et le développement".data

def ciredLong2 : List Char :=
  "centre international de recherche sur l'environnement et le developpement".data

/-- Function `useAcronym` from `4_Clean/clean.py`: fold the expanded institute
name to `CIRED`, remove a redundant `(CIRED)`, collapse whitespace and
trim. -/
def useAcronym (org_value : String) : String :=
  let s1 := ciSub ciredLong1 org_value.data
  let s2 := ciSub ciredLong2 s1
  let s3 := parenSubGo s2.length s2
  ⟨((splitWs s3).intersperse [' ']).flatten⟩

/-- Function `deduplicate_CIRED_ORG` from `4_Clean/clean.py`: acronymize each org
value in place, then remove duplicates by the stripped-lowercase key,
deleting the key when the list becomes empty. -/
def deduplicate_CIRED_ORG (vcard : VCard) : VCard :=
  match vcard.org with
  | none => vcard
  | some l =>
    let acr := l.map useAcronym
    let l' := dedupBy strippedLower acr []
    if l' = [] then { vcard with org := none } else { vcard with org := some l' }

/-- Function `clean` from `4_Clean/clean.py`: the four per-card cleaning steps in
source order. -/
def clean (avail : String → Bool) (vcard : VCard) : VCard :=
  deduplicate_CIRED_ORG (remove_dead_urls avail (deduplicate_emails (remove_obsolete_emails vcard)))

/-! ### The generic transform driver, `utils.py` -/

/-- Python list slicing `l[:k]` (a negative bound counts from the end). -/
def pySliceTo (k : Int) (l : List α) : List α :=
  if 0 ≤ k then l.take k.toNat else l.take (l.length - k.natAbs)

/-- Slice `vcards[: args.limit] if args.limit else vcards`: `args.limit` is
`None` or an integer, and both `None` and `0` are falsy. -/
def cardsToProcess (limit : Option Int) (cards : List VCard) : List VCard :=
  match limit with
  | some k => if k ≠ 0 then pySliceTo k cards else cards
  | none => cards

/-- Function `process_vcards` from `utils.py`: apply the processor to each card of
the (possibly limited) input; `none` models the processor raising an
exception or returning no result, in which case the `except`/`finally`
logic appends the original card; every iteration appends exactly one
card. -/
def process_vcards (limit : Option Int) (processor : VCard → Option VCard)
    (vcards : List VCard) : List VCard :=
  (cardsToProcess limit vcards).foldl
    (fun acc c => acc ++ [match processor c with | some r => r | none => c]) []

/-! ### The post-merge verifier `verify_inverted_fn_pairs`, `2_Merge/merge.py` -/

/-- Helper `invert_name` inside `verify_inverted_fn_pairs`: `None` for names of
fewer than two parts, otherwise the parts in reverse order joined by
single spaces (never the empty string). -/
def invert_name (name : String) : Option String :=
  let parts := splitWs (pyStrip name).data
  if parts.length < 2 then none
  else some ⟨(parts.reverse.intersperse [' ']).flatten⟩

/-- One iteration of the `verify_inverted_fn_pairs` loop: state is
`(inverted_pairs, seen)`. -/
def invStep (fnSet : List String) (st : List (String × String) × List (String × String))
    (fn : String) : List (String × String) × List (String × String) :=
  match invert_name fn with
  | none => st
  | some inv =>
    if inv ∈ fnSet ∧ (inv, fn) ∉ st.2 then
      (st.1 ++ [(fn, inv)], st.2 ++ [(fn, inv), (inv, fn)])
    else st

/-- Function `verify_inverted_fn_pairs` from `2_Merge/merge.py`, over the list of
FN values read from the output file (in file order); returns the
reported pairs (the source prints them and returns their count).  The
function only reads: it produces a report and mutates no contact data. -/
def verify_inverted_fn_pairs (fn_lines : List String) : List (String × String) :=
  (fn_lines.foldl (invStep fn_lines) ([], [])).1

/-- Modelled from the spec: deduplication that is "case-insensitive but
order-preserving", "first occurrence kept" — keep each element and drop
every later element with the same case-insensitive (stripped) form.
Stated independently of the source's flag-then-remove loop, for
comparison with it. -/
def specFirstSeenCaseInsensitive : List String → List String
  | [] => []
  | v :: vs =>
    v :: specFirstSeenCaseInsensitive (vs.filter (fun w => strippedLower w ≠ strippedLower v))
termination_by l => l.length
decreasing_by
  have := List.length_filter_le (fun w => strippedLower w ≠ strippedLower v) vs
  simp only [List.length_cons]
  omega

/-- Invariant of the `verify_inverted_fn_pairs` loop state (pairs,
seen): reported pairs are sound with respect to the FN list, the `seen`
set holds exactly both orders of the reported pairs, and no two reported
pairs coincide as unordered pairs. -/
def InvariantInv (fns : List String)
    (st : List (String × String) × List (String × String)) : Prop :=
  (∀ pr ∈ st.1, pr.1 ∈ fns ∧ pr.2 ∈ fns ∧ invert_name pr.1 = some pr.2) ∧
  (∀ x y : String, (x, y) ∈ st.2 ↔ (x, y) ∈ st.1 ∨ (y, x) ∈ st.1) ∧
  st.1.Pairwise (fun pr qr => pr ≠ qr ∧ pr ≠ (qr.2, qr.1))

/-! ## Theorems

Shared auxiliary lemmas come first, then one theorem per claim (with its
witness or counterexample where applicable). -/

/-- Appending one element per input in a left fold is a `map`. -/
theorem foldl_snoc_map {α β : Type} (g : α → β) (l : List α) (acc : List β) :
    l.foldl (fun a c => a ++ [g c]) acc = acc ++ l.map g := by
  induction l generalizing acc with
  | nil => simp
  | cons c cs ih => simp [List.foldl_cons, ih]

/-- C10: `normalize_fn` is total by construction; on a card with no
readable FN field (the `try/except` path) it returns the empty string,
so grouping applies to arbitrary ingested cards. -/
theorem normalize_fn_no_fn_empty (c : VCard) (h : c.fn = none) :
    normalize_fn c = "" := by
  unfold normalize_fn
  rw [h]

/-- Witness for C10, at the card with no fields. -/
theorem normalize_fn_no_fn_empty_witness :
    ({} : VCard).fn = none ∧ normalize_fn {} = "" :=
  ⟨rfl, normalize_fn_no_fn_empty {} rfl⟩

/-- C8 counterexample: with ingestion contributing zero records, `main`
still reports a written output file and exit status 0 — not the non-zero
exit without an output file that the claim states. -/
theorem mergeMain_empty_counterexample :
    (mergeMain id [] []).exitCode = 0 ∧ (mergeMain id [] []).outputWritten = true :=
  ⟨rfl, rfl⟩

/-- C8 as amended: the merge entry point writes the output file and
finishes with exit status 0 unconditionally; in particular, when
ingestion yields no records it writes an output file containing zero
contacts. -/
theorem mergeMain_always_writes (collate : String → String)
    (contacts : List VCard) (sources : List String) :
    (mergeMain collate contacts sources).outputWritten = true ∧
    (mergeMain collate contacts sources).exitCode = 0 ∧
    (contacts = [] → (mergeMain collate contacts sources).merged = []) := by
  refine ⟨rfl, rfl, ?_⟩
  rintro rfl
  simp [mergeMain, merge_all_contacts, group_contacts, List.mergeSort_nil]

/-- Witness for C8's amended theorem at empty ingestion. -/
theorem mergeMain_always_writes_witness :
    (mergeMain id [] []).outputWritten = true ∧
    (mergeMain id [] []).exitCode = 0 ∧ (mergeMain id [] []).merged = [] :=
  ⟨(mergeMain_always_writes id [] []).1, (mergeMain_always_writes id [] []).2.1,
   (mergeMain_always_writes id [] []).2.2 rfl⟩

/-- C7: the transform driver emits exactly one output card per processed
input card (the input list, cut to the `--limit` slice), and whenever the
processor fails on a card (raises, or returns no result: `processor c =
none`), the original card is propagated unchanged at that position. -/
theorem process_vcards_no_loss (limit : Option Int) (f : VCard → Option VCard)
    (cards : List VCard) :
    (process_vcards limit f cards).length = (cardsToProcess limit cards).length ∧
    ∀ (i : Nat) (c : VCard), (cardsToProcess limit cards)[i]? = some c → f c = none →
      (process_vcards limit f cards)[i]? = some c := by
  have h : process_vcards limit f cards =
      (cardsToProcess limit cards).map (fun c => match f c with | some r => r | none => c) :=
    foldl_snoc_map _ _ []
  constructor
  · rw [h, List.length_map]
  · intro i c hi hf
    rw [h, List.getElem?_map, hi]
    simp [hf]

/-- Witness for C7: one card, a processor that always fails; the output
still has one card and it is the original. -/
theorem process_vcards_no_loss_witness :
    (process_vcards none (fun _ => none) [({} : VCard)]).length =
      (cardsToProcess none [({} : VCard)]).length ∧
    (process_vcards none (fun _ => none) [({} : VCard)])[0]? = some ({} : VCard) :=
  ⟨(process_vcards_no_loss none (fun _ => none) [({} : VCard)]).1,
   (process_vcards_no_loss none (fun _ => none) [({} : VCard)]).2 0 {} rfl rfl⟩

/-- C3 counterexample: the merge pass itself deduplicates emails by
exact, case-sensitive comparison, so the spec's example input yields all
three entries after merge, not the claimed two. -/
theorem merge_email_caseSensitive_counterexample :
    (merge_vcards [{ fn := some "X", email := some ["a@x.com"] },
                   { email := some ["A@X.com"] },
                   { email := some ["b@y.com"] }] ["s1", "s2", "s3"]).email
        = some ["a@x.com", "A@X.com", "b@y.com"] ∧
    (merge_vcards [{ fn := some "X", email := some ["a@x.com"] },
                   { email := some ["A@X.com"] },
                   { email := some ["b@y.com"] }] ["s1", "s2", "s3"]).email
        ≠ some ["a@x.com", "b@y.com"] := by
  decide

/-- Bridge between the source's duplicate-removal scan and the spec-side
first-occurrence filter, generalized over the already-seen keys. -/
theorem dedupBy_strippedLower_eq_spec_aux (l : List String) :
    ∀ seen : List String,
      dedupBy strippedLower l seen =
        specFirstSeenCaseInsensitive
          (l.filter (fun v => decide (strippedLower v ∉ seen))) := by
  induction l with
  | nil => intro seen; simp [dedupBy, specFirstSeenCaseInsensitive]
  | cons v vs ih =>
    intro seen
    by_cases hv : strippedLower v ∈ seen
    · simp only [dedupBy, if_pos hv, List.filter_cons, decide_eq_true_eq]
      rw [if_neg (by simp [hv])]
      exact ih seen
    · simp only [dedupBy, if_neg hv, List.filter_cons]
      rw [if_pos (by simp [hv])]
      rw [specFirstSeenCaseInsensitive, List.filter_filter]
      rw [ih (strippedLower v :: seen)]
      have hf : List.filter (fun w => decide (strippedLower w ∉ strippedLower v :: seen)) vs
          = List.filter
              (fun w => decide (strippedLower w ≠ strippedLower v) &&
                decide (strippedLower w ∉ seen)) vs := by
        apply List.filter_congr
        intro w _
        rcases eq_or_ne (strippedLower w) (strippedLower v) with he | he
        · simp [he]
        · by_cases hm : strippedLower w ∈ seen
          · simp [he, hm]
          · simp [he, hm]
      rw [hf]

/-- C3 as amended: merge-stage email deduplication is case-sensitive
(see the counterexample); the case-insensitive, order-preserving,
first-occurrence-kept deduplication is performed by the cleaning stage
(`deduplicate_emails` in `4_Clean/clean.py`), whose scan coincides with
the spec-side first-seen filter, and which turns the merged example into
exactly `["a@x.com", "b@y.com"]`. -/
theorem email_dedup_caseInsensitive_at_clean_stage :
    (deduplicate_emails (merge_vcards
        [{ fn := some "X", email := some ["a@x.com"] },
         { email := some ["A@X.com"] },
         { email := some ["b@y.com"] }] ["s1", "s2", "s3"])).email
      = some ["a@x.com", "b@y.com"] ∧
    ∀ l : List String, dedupBy strippedLower l [] = specFirstSeenCaseInsensitive l := by
  constructor
  · decide
  · intro l
    rw [dedupBy_strippedLower_eq_spec_aux l []]
    congr 1
    simp

/-- C4 counterexample: two URL entries with the same value and the same
set of type tags listed in different orders do not collapse — the merge
keys on the tag tuple, so both survive. -/
theorem mergeUrls_typeOrder_counterexample :
    (merge_vcards [{ url := some [⟨"http://x.org", ["work", "home"]⟩,
                                  ⟨"http://x.org", ["home", "work"]⟩] }] ["s"]).url
      = some [⟨"http://x.org", ["work", "home"]⟩, ⟨"http://x.org", ["home", "work"]⟩] ∧
    (merge_vcards [{ url := some [⟨"http://x.org", ["work", "home"]⟩,
                                  ⟨"http://x.org", ["home", "work"]⟩] }] ["s"]).url
      ≠ some [⟨"http://x.org", ["work", "home"]⟩] := by
  decide

/-- C4 as amended: URL merge deduplicates by the pair (trimmed value,
type-tag sequence in listed order): entries with identical value and
identical tag list collapse to one, while entries with the same value but
different tag lists — including the same tags in a different order —
both survive. -/
theorem merge_urls_dedup_by_type_list (v : String) (t1 t2 : List String)
    (h : pyStrip v ≠ "") :
    (merge_vcards [{ url := some [⟨v, t1⟩, ⟨v, t2⟩] }] ["s"]).url =
      some (if t1 = t2 then [⟨v, t1⟩] else [⟨v, t1⟩, ⟨v, t2⟩]) := by
  by_cases ht : t1 = t2
  · subst ht
    simp [merge_vcards, mergeUrls, getL, optList, h]
  · have ht' : ¬ t2 = t1 := fun hh => ht hh.symm
    simp [merge_vcards, mergeUrls, getL, optList, h, ht, ht', Prod.ext_iff]

/-- Witness for C4's amended theorem: identical value and identical tag
list collapse to a single entry. -/
theorem merge_urls_dedup_by_type_list_witness :
    (merge_vcards [{ url := some [⟨"http://x.org", ["hal"]⟩,
                                  ⟨"http://x.org", ["hal"]⟩] }] ["s"]).url
      = some [⟨"http://x.org", ["hal"]⟩] := by
  have h := merge_urls_dedup_by_type_list "http://x.org" ["hal"] ["hal"] (by decide)
  simpa using h

/-- Step lemma for C9: `remove_obsolete_emails` never leaves an empty
email list behind, and does not touch the url/org fields. -/
theorem remove_obsolete_emails_fields (c : VCard) :
    (remove_obsolete_emails c).email ≠ some [] ∧
    (remove_obsolete_emails c).url = c.url ∧
    (remove_obsolete_emails c).org = c.org := by
  cases h : c.email with
  | none => simp [remove_obsolete_emails, h]
  | some l =>
    simp only [remove_obsolete_emails, h]
    by_cases hl : l.filter (fun e => !(is_obsolete_email e)) = []
    · simp [hl]
    · simp [hl]

/-- Step lemma for C9: `deduplicate_emails` never leaves an empty email
list behind, and does not touch the url/org fields. -/
theorem deduplicate_emails_fields (c : VCard) :
    (deduplicate_emails c).email ≠ some [] ∧
    (deduplicate_emails c).url = c.url ∧
    (deduplicate_emails c).org = c.org := by
  cases h : c.email with
  | none => simp [deduplicate_emails, h]
  | some l =>
    simp only [deduplicate_emails, h]
    by_cases hl : dedupBy strippedLower l [] = []
    · simp [hl]
    · simp [hl]

/-- Step lemma for C9: `remove_dead_urls` never leaves an empty url list
behind, and does not touch the email/org fields. -/
theorem remove_dead_urls_fields (avail : String → Bool) (c : VCard) :
    (remove_dead_urls avail c).url ≠ some [] ∧
    (remove_dead_urls avail c).email = c.email ∧
    (remove_dead_urls avail c).org = c.org := by
  cases h : c.url with
  | none => simp [remove_dead_urls, h]
  | some l =>
    simp only [remove_dead_urls, h]
    by_cases hl : l.filter (fun u => (find_urls u.value).all avail) = []
    · simp [hl]
    · simp [hl]

/-- Step lemma for C9: `deduplicate_CIRED_ORG` never leaves an empty org
list behind, and does not touch the email/url fields. -/
theorem deduplicate_CIRED_ORG_fields (c : VCard) :
    (deduplicate_CIRED_ORG c).org ≠ some [] ∧
    (deduplicate_CIRED_ORG c).email = c.email ∧
    (deduplicate_CIRED_ORG c).url = c.url := by
  cases h : c.org with
  | none => simp [deduplicate_CIRED_ORG, h]
  | some l =>
    simp only [deduplicate_CIRED_ORG, h]
    by_cases hl : dedupBy strippedLower (l.map useAcronym) [] = []
    · simp [hl]
    · simp [hl]

/-- C9: after the cleaning pass, no multi-valued field is present but
empty — whenever a removal or deduplication empties the email, url or
org list, the field key itself is deleted, so every such field still
present on a cleaned card has at least one entry. -/
theorem clean_no_empty_field_lists (avail : String → Bool) (c : VCard) :
    (clean avail c).email ≠ some [] ∧ (clean avail c).url ≠ some [] ∧
    (clean avail c).org ≠ some [] := by
  unfold clean
  obtain ⟨e2, u2, o2⟩ := deduplicate_emails_fields (remove_obsolete_emails c)
  obtain ⟨u3, e3, o3⟩ := remove_dead_urls_fields avail
    (deduplicate_emails (remove_obsolete_emails c))
  obtain ⟨o4, e4, u4⟩ := deduplicate_CIRED_ORG_fields
    (remove_dead_urls avail (deduplicate_emails (remove_obsolete_emails c)))
  refine ⟨?_, ?_, o4⟩
  · rw [e4, e3]; exact e2
  · rw [u4]; exact u3

/-- Witness for C9 on a card whose email, url and org lists all shrink. -/
theorem clean_no_empty_field_lists_witness :
    (clean (fun _ => false)
      { email := some ["a@centre-cired.fr"],
        url := some [⟨"http://dead.example.org", []⟩],
        org := some ["CIRED", "cired"] }).email ≠ some [] ∧
    (clean (fun _ => false)
      { email := some ["a@centre-cired.fr"],
        url := some [⟨"http://dead.example.org", []⟩],
        org := some ["CIRED", "cired"] }).url ≠ some [] ∧
    (clean (fun _ => false)
      { email := some ["a@centre-cired.fr"],
        url := some [⟨"http://dead.example.org", []⟩],
        org := some ["CIRED", "cired"] }).org ≠ some [] :=
  clean_no_empty_field_lists (fun _ => false)
    { email := some ["a@centre-cired.fr"],
      url := some [⟨"http://dead.example.org", []⟩],
      org := some ["CIRED", "cired"] }

/-- Inserting into the grouped map appends the card at the end of its
key's group. -/
theorem groupOf_insertGrouped_same (k : String) (c : VCard) (src : String)
    (g : List GroupEntry) :
    groupOf (insertGrouped k c src g) k = groupOf g k ++ [c] := by
  induction g with
  | nil => simp [insertGrouped, groupOf]
  | cons e rest ih =>
    obtain ⟨k', cs, ss⟩ := e
    by_cases hk : k' = k
    · subst hk
      simp [insertGrouped, groupOf]
    · simp [insertGrouped, groupOf, hk, ih]

/-- Inserting into the grouped map leaves every other key's group
unchanged. -/
theorem groupOf_insertGrouped_other (k k' : String) (hne : k' ≠ k) (c : VCard)
    (src : String) (g : List GroupEntry) :
    groupOf (insertGrouped k c src g) k' = groupOf g k' := by
  induction g with
  | nil => simp [insertGrouped, groupOf, Ne.symm hne]
  | cons e rest ih =>
    obtain ⟨k'', cs, ss⟩ := e
    by_cases hk : k'' = k
    · subst hk
      simp [insertGrouped, groupOf, Ne.symm hne]
    · by_cases hk' : k'' = k'
      · subst hk'
        simp [insertGrouped, groupOf, hk]
      · simp [insertGrouped, groupOf, hk, hk', ih]

/-- The grouping fold only ever extends a key's group. -/
theorem groupOf_foldl_extend (pairs : List (VCard × String)) :
    ∀ (g : List GroupEntry) (k : String),
      ∃ t, groupOf (pairs.foldl (fun g p => insertGrouped (normalize_fn p.1) p.1 p.2 g) g) k
        = groupOf g k ++ t := by
  induction pairs with
  | nil => intro g k; exact ⟨[], by simp⟩
  | cons p rest ih =>
    intro g k
    rw [List.foldl_cons]
    obtain ⟨t, ht⟩ := ih (insertGrouped (normalize_fn p.1) p.1 p.2 g) k
    by_cases hk : normalize_fn p.1 = k
    · subst hk
      rw [ht, groupOf_insertGrouped_same]
      exact ⟨[p.1] ++ t, by simp⟩
    · rw [ht, groupOf_insertGrouped_other _ _ (fun h => hk h.symm)]
      exact ⟨t, rfl⟩

/-- Every ingested (card, source) pair ends up in the group of the
card's normalized key — whatever that key is, including the empty one. -/
theorem mem_groupOf_group_contacts (contacts : List VCard) (sources : List String)
    (c : VCard) (src : String) (hmem : (c, src) ∈ contacts.zip sources) :
    c ∈ groupOf (group_contacts contacts sources) (normalize_fn c) := by
  unfold group_contacts
  generalize contacts.zip sources = pairs at hmem
  suffices h : ∀ g : List GroupEntry,
      c ∈ groupOf (pairs.foldl (fun g p => insertGrouped (normalize_fn p.1) p.1 p.2 g) g)
        (normalize_fn c) from h []
  induction pairs with
  | nil => cases hmem
  | cons p rest ih =>
    intro g
    rw [List.foldl_cons]
    rcases List.mem_cons.mp hmem with heq | htail
    · obtain ⟨t, ht⟩ := groupOf_foldl_extend rest
        (insertGrouped (normalize_fn p.1) p.1 p.2 g) (normalize_fn c)
      rw [ht]
      apply List.mem_append_left
      have hp : p.1 = c := by rw [← heq]
      rw [← hp, groupOf_insertGrouped_same]
      exact List.mem_append_right _ (List.mem_singleton.mpr rfl)
    · exact ih htail (insertGrouped (normalize_fn p.1) p.1 p.2 g)

/-- Merging a grouped map with a single key produces exactly the merge
of that key's group. -/
theorem merge_all_contacts_singleton (collate : String → String) (k : String)
    (cs : List VCard) (ss : List String) :
    merge_all_contacts collate [(k, cs, ss)] = [merge_vcards cs ss] := by
  simp [merge_all_contacts, List.mergeSort_singleton]

/-- C1 counterexample: a card whose key is empty (here: a card with no
FN at all) is NOT excluded — `group_contacts` files it under the key
`""`, and the merge pass produces a MergedContact from that group. -/
theorem unkeyable_record_merged_counterexample :
    group_contacts [({} : VCard)] ["1_Scrape/askHAL.vcf"] =
      [("", [({} : VCard)], ["1_Scrape/askHAL.vcf"])] ∧
    merge_all_contacts id (group_contacts [({} : VCard)] ["1_Scrape/askHAL.vcf"]) =
      [merge_vcards [({} : VCard)] ["1_Scrape/askHAL.vcf"]] := by
  have h1 : group_contacts [({} : VCard)] ["1_Scrape/askHAL.vcf"] =
      [("", [({} : VCard)], ["1_Scrape/askHAL.vcf"])] := rfl
  refine ⟨h1, ?_⟩
  rw [h1, merge_all_contacts_singleton]

/-- C1 as amended: records whose normalized key is empty are not
excluded from grouping; `group_contacts` assigns every such record to
the single group keyed by the empty string, which the merge pass then
merges into one MergedContact like any other group. -/
theorem unkeyable_records_grouped_under_empty_key (contacts : List VCard)
    (sources : List String) (c : VCard) (src : String)
    (hmem : (c, src) ∈ contacts.zip sources) (hkey : normalize_fn c = "") :
    c ∈ groupOf (group_contacts contacts sources) "" := by
  have h := mem_groupOf_group_contacts contacts sources c src hmem
  rwa [hkey] at h

/-- Witness for C1's amended theorem: the FN-less card joins the
empty-key group. -/
theorem unkeyable_records_grouped_under_empty_key_witness :
    normalize_fn ({} : VCard) = "" ∧
    ({} : VCard) ∈ groupOf (group_contacts [({} : VCard)] ["src.vcf"]) "" :=
  ⟨rfl, unkeyable_records_grouped_under_empty_key [({} : VCard)] ["src.vcf"] {} "src.vcf"
    (by decide) rfl⟩

/-- Unfolding lemma: a whitespace head is skipped. -/
theorem splitWs_cons_ws (c : Char) (cs : List Char) (h : pyIsWs c = true) :
    splitWs (c :: cs) = splitWs cs := by
  simp [splitWs, h]

/-- Unfolding lemma: a final non-whitespace character is its own token. -/
theorem splitWs_cons_one (c : Char) (h : pyIsWs c = false) :
    splitWs [c] = [[c]] := by
  simp [splitWs, h]

/-- Unfolding lemma: a non-whitespace character before whitespace starts
its own token. -/
theorem splitWs_cons_break (c d : Char) (cs : List Char) (hc : pyIsWs c = false)
    (hd : pyIsWs d = true) :
    splitWs (c :: d :: cs) = [c] :: splitWs (d :: cs) := by
  simp [splitWs, hc, hd]

/-- Unfolding lemma: a non-whitespace character before a non-whitespace
character extends the first token of the remainder. -/
theorem splitWs_cons_glue (c d : Char) (cs : List Char) (hc : pyIsWs c = false)
    (hd : pyIsWs d = false) :
    splitWs (c :: d :: cs) =
      (c :: (splitWs (d :: cs)).headD []) :: (splitWs (d :: cs)).tail := by
  simp [splitWs, hc, hd]

/-- Splitting a list with a non-whitespace head yields at least one
token. -/
theorem splitWs_ne_nil (d : Char) (t : List Char) (hd : pyIsWs d = false) :
    splitWs (d :: t) ≠ [] := by
  cases t with
  | nil => rw [splitWs_cons_one d hd]; simp
  | cons e t' =>
    by_cases he : pyIsWs e
    · rw [splitWs_cons_break d e t' hd he]; simp
    · have he' : pyIsWs e = false := by simpa using he
      rw [splitWs_cons_glue d e t' hd he']; simp

/-- Tokens produced by `splitWs` are non-empty and consist of
non-whitespace characters of the input. -/
theorem splitWs_tokens (cs : List Char) :
    ∀ p ∈ splitWs cs, p ≠ [] ∧ ∀ c ∈ p, pyIsWs c = false ∧ c ∈ cs := by
  induction cs with
  | nil => simp [splitWs]
  | cons c rest ih =>
    intro p hp
    by_cases hw : pyIsWs c
    · rw [splitWs_cons_ws c rest hw] at hp
      obtain ⟨hne, hall⟩ := ih p hp
      exact ⟨hne, fun x hx => ⟨(hall x hx).1, List.mem_cons_of_mem _ (hall x hx).2⟩⟩
    · have hw' : pyIsWs c = false := by simpa using hw
      cases rest with
      | nil =>
        rw [splitWs_cons_one c hw'] at hp
        rw [List.mem_singleton.mp hp]
        refine ⟨by simp, fun x hx => ?_⟩
        rw [List.mem_singleton.mp hx]
        exact ⟨hw', List.mem_cons_self c []⟩
      | cons d rest' =>
        by_cases hd : pyIsWs d
        · rw [splitWs_cons_break c d rest' hw' hd] at hp
          rcases List.mem_cons.mp hp with hpc | hpr
          · subst hpc
            refine ⟨by simp, fun x hx => ?_⟩
            rw [List.mem_singleton.mp hx]
            exact ⟨hw', List.mem_cons_self c _⟩
          · obtain ⟨hne, hall⟩ := ih p hpr
            exact ⟨hne, fun x hx => ⟨(hall x hx).1, List.mem_cons_of_mem _ (hall x hx).2⟩⟩
        · have hd' : pyIsWs d = false := by simpa using hd
          rw [splitWs_cons_glue c d rest' hw' hd'] at hp
          obtain ⟨q, qs, heq⟩ := List.exists_cons_of_ne_nil (splitWs_ne_nil d rest' hd')
          rw [heq] at hp
          simp only [List.headD_cons, List.tail_cons] at hp
          have hq : q ∈ splitWs (d :: rest') := by rw [heq]; exact List.mem_cons_self q qs
          rcases List.mem_cons.mp hp with hpc | hpr
          · subst hpc
            refine ⟨by simp, fun x hx => ?_⟩
            rcases List.mem_cons.mp hx with hxc | hxq
            · rw [hxc]
              exact ⟨hw', List.mem_cons_self c _⟩
            · obtain ⟨_, hall⟩ := ih q hq
              exact ⟨(hall x hxq).1, List.mem_cons_of_mem _ (hall x hxq).2⟩
          · have hpq : p ∈ splitWs (d :: rest') := by
              rw [heq]; exact List.mem_cons_of_mem q hpr
            obtain ⟨hne, hall⟩ := ih p hpq
            exact ⟨hne, fun x hx => ⟨(hall x hx).1, List.mem_cons_of_mem _ (hall x hx).2⟩⟩

/-- Characters of a `nameTokens` token are kept characters (lowercase
ASCII letters and digits). -/
theorem nameTokens_chars (s : String) :
    ∀ p ∈ nameTokens s, p ≠ [] ∧ ∀ c ∈ p, keepChar c = true := by
  intro p hp
  obtain ⟨hne, hall⟩ := splitWs_tokens (nameChars s) p hp
  refine ⟨hne, fun c hc => ?_⟩
  obtain ⟨hws, hmem⟩ := hall c hc
  simp only [nameChars, List.mem_map] at hmem
  obtain ⟨c', _, rfl⟩ := hmem
  by_cases h1 : keepChar c' || pyIsWs c'
  · simp only [cleanChar, if_pos h1] at hws ⊢
    rcases (by simpa using h1 : keepChar c' = true ∨ pyIsWs c' = true) with hk | hw
    · exact hk
    · rw [hw] at hws; cases hws
  · simp only [cleanChar, if_neg h1] at hws
    simp [pyIsWs] at hws

/-- Comparison of characters transfers to their code points. -/
theorem char_le_toNat {a b : Char} (h : a ≤ b) : a.toNat ≤ b.toNat := by
  rw [Char.le_def, UInt32.le_def] at h
  exact h

/-- Kept characters are plain ASCII. -/
theorem keepChar_toNat (c : Char) (h : keepChar c = true) :
    (97 ≤ c.toNat ∧ c.toNat ≤ 122) ∨ (48 ≤ c.toNat ∧ c.toNat ≤ 57) := by
  simp only [keepChar, Bool.or_eq_true, decide_eq_true_eq] at h
  rcases h with ⟨h1, h2⟩ | ⟨h1, h2⟩
  · exact Or.inl ⟨char_le_toNat h1, char_le_toNat h2⟩
  · exact Or.inr ⟨char_le_toNat h1, char_le_toNat h2⟩

/-- A kept character passes the mark-stripping stage unchanged. -/
theorem stripMarks_keep (c : Char) (h : keepChar c = true) : stripMarks c = [c] := by
  have hn := keepChar_toNat c h
  unfold stripMarks
  rw [if_pos (by omega)]

/-- A kept character passes the lowercasing stage unchanged. -/
theorem pyLower_keep (c : Char) (h : keepChar c = true) : pyLower c = c := by
  have hn := keepChar_toNat c h
  have hAZ : ¬('A' ≤ c ∧ c ≤ 'Z') := by
    intro ⟨h1, h2⟩
    have g1 := char_le_toNat h1
    have g2 := char_le_toNat h2
    revert g1 g2
    show 65 ≤ c.toNat → c.toNat ≤ 90 → False
    omega
  unfold pyLower
  rw [if_neg hAZ, if_neg (by omega)]

/-- A kept character passes the space-substitution stage unchanged. -/
theorem cleanChar_keep (c : Char) (h : keepChar c = true) : cleanChar c = c := by
  unfold cleanChar
  rw [if_pos (by simp [h])]

/-- A kept character is not whitespace. -/
theorem keepChar_not_ws (c : Char) (h : keepChar c = true) : pyIsWs c = false := by
  have hn := keepChar_toNat c h
  rcases hb : pyIsWs c with _ | _
  · rfl
  · simp only [pyIsWs, Bool.or_eq_true, decide_eq_true_eq] at hb
    rcases hb with ((((h1 | h1) | h1) | h1) | h1) | h1 <;>
      (rw [h1] at hn; revert hn; decide)

/-- A string of kept characters survives the character pipeline
unchanged. -/
theorem nameChars_keep : ∀ p : List Char, (∀ c ∈ p, keepChar c = true) →
    nameChars ⟨p⟩ = p
  | [], _ => rfl
  | c :: t, hk => by
    have hc := hk c (List.mem_cons_self c t)
    have iht := nameChars_keep t (fun x hx => hk x (List.mem_cons_of_mem _ hx))
    show (((c :: t).flatMap stripMarks).map pyLower).map cleanChar = c :: t
    rw [List.flatMap_cons, stripMarks_keep c hc]
    simp only [List.cons_append, List.nil_append, List.map_cons]
    rw [pyLower_keep c hc, cleanChar_keep c hc]
    exact congrArg (c :: ·) iht

/-- Splitting a non-empty all-non-whitespace list yields that single
token. -/
theorem splitWs_no_ws : ∀ p : List Char, p ≠ [] → (∀ c ∈ p, pyIsWs c = false) →
    splitWs p = [p]
  | [], hne, _ => absurd rfl hne
  | c :: t, _, hk => by
    have hc : pyIsWs c = false := hk c (List.mem_cons_self c t)
    match t with
    | [] => exact splitWs_cons_one c hc
    | d :: t' =>
      have hd : pyIsWs d = false := hk d (by simp)
      have iht : splitWs (d :: t') = [d :: t'] :=
        splitWs_no_ws (d :: t') (by simp) (fun x hx => hk x (List.mem_cons_of_mem _ hx))
      rw [splitWs_cons_glue c d t' hc hd, iht]
      rfl

/-- The tokenization of a single kept-character token is itself. -/
theorem nameTokens_single_fix (p : List Char) (hne : p ≠ [])
    (hk : ∀ c ∈ p, keepChar c = true) : nameTokens ⟨p⟩ = [p] := by
  unfold nameTokens
  rw [nameChars_keep p hk]
  exact splitWs_no_ws p hne (fun c hc => keepChar_not_ws c (hk c hc))

/-- C2 counterexample: normalization is not idempotent — the two-word
name "dupont daniel" normalizes to "daniel d", but normalizing that key
again yields the shorter key "d d". -/
theorem normalize_name_not_idempotent_counterexample :
    normalize_name (normalize_name "dupont daniel") ≠ normalize_name "dupont daniel" := by
  decide

/-- C2 as amended: normalization is idempotent on every name that
normalizes to at most one part (the empty key and single-word keys); for
multi-word names a second application can produce a strictly different
key, as the counterexample "dupont daniel" → "daniel d" → "d d" shows. -/
theorem normalize_name_idem_short (s : String) (h : (nameTokens s).length ≤ 1) :
    normalize_name (normalize_name s) = normalize_name s := by
  match htok : nameTokens s with
  | [] =>
    unfold normalize_name
    rw [htok]
    rfl
  | [p] =>
    obtain ⟨hne, hk⟩ := nameTokens_chars s p (by rw [htok]; exact List.mem_singleton.mpr rfl)
    unfold normalize_name
    rw [htok]
    show (⟨normCore (nameTokens ⟨p⟩)⟩ : String) = ⟨p⟩
    rw [nameTokens_single_fix p hne hk]
    rfl
  | p :: q :: rest =>
    rw [htok] at h
    simp at h

/-- Witness for C2's amended theorem at the single-word name "sachs". -/
theorem normalize_name_idem_short_witness :
    (nameTokens "sachs").length ≤ 1 ∧
    normalize_name (normalize_name "sachs") = normalize_name "sachs" :=
  ⟨by decide, normalize_name_idem_short "sachs" (by decide)⟩

/-- Splitting around an explicit separating space concatenates the two
splits. -/
theorem splitWs_append_space (xs ys : List Char) :
    splitWs (xs ++ ' ' :: ys) = splitWs xs ++ splitWs ys := by
  induction xs with
  | nil =>
    simp only [List.nil_append]
    rw [splitWs_cons_ws ' ' ys rfl]
    rfl
  | cons c xs' ih =>
    simp only [List.cons_append]
    by_cases hw : pyIsWs c
    · rw [splitWs_cons_ws c _ hw, splitWs_cons_ws c _ hw, ih]
    · have hw' : pyIsWs c = false := by simpa using hw
      cases xs' with
      | nil =>
        simp only [List.nil_append]
        rw [splitWs_cons_break c ' ' ys hw' rfl, splitWs_cons_ws ' ' ys rfl,
          splitWs_cons_one c hw']
        rfl
      | cons d xs'' =>
        simp only [List.cons_append] at ih ⊢
        by_cases hd : pyIsWs d
        · rw [splitWs_cons_break c d _ hw' hd, splitWs_cons_break c d _ hw' hd, ih]
          rfl
        · have hd' : pyIsWs d = false := by simpa using hd
          rw [splitWs_cons_glue c d _ hw' hd', splitWs_cons_glue c d _ hw' hd', ih]
          obtain ⟨q, qs, heq⟩ := List.exists_cons_of_ne_nil (splitWs_ne_nil d xs'' hd')
          rw [heq]
          rfl

/-- The character pipeline maps an explicit separating space to a
space and distributes over the concatenation. -/
theorem nameChars_append_space (a b : String) :
    nameChars (a ++ " " ++ b) = nameChars a ++ ' ' :: nameChars b := by
  unfold nameChars
  rw [String.data_append, String.data_append]
  show ((((a.data ++ [' ']) ++ b.data).flatMap stripMarks).map pyLower).map cleanChar = _
  have hm : ((([' '] : List Char).flatMap stripMarks).map pyLower).map cleanChar = [' '] := rfl
  rw [List.flatMap_append, List.flatMap_append, List.map_append, List.map_append,
    List.map_append, List.map_append, hm, List.append_assoc]
  rfl

/-- Python string comparison is asymmetric. -/
theorem lexLt_asymm : ∀ a b : List Char, lexLt a b = true → lexLt b a = false
  | [], [], h => by simp [lexLt] at h
  | [], _ :: _, _ => by simp [lexLt]
  | _ :: _, [], h => by simp [lexLt] at h
  | a :: as, b :: bs, h => by
    simp only [lexLt] at h ⊢
    by_cases hab : a < b
    · rw [if_neg (lt_asymm hab), if_pos hab]
    · by_cases hba : b < a
      · rw [if_neg hab, if_pos hba] at h
        exact absurd h (by simp)
      · rw [if_neg hab, if_neg hba] at h
        rw [if_neg hba, if_neg hab]
        exact lexLt_asymm as bs h

/-- Lists that compare below each other in neither direction are
equal. -/
theorem lexLt_conn : ∀ a b : List Char, lexLt a b = false → lexLt b a = false → a = b
  | [], [], _, _ => rfl
  | [], _ :: _, h, _ => by simp [lexLt] at h
  | _ :: _, [], _, h => by simp [lexLt] at h
  | a :: as, b :: bs, h1, h2 => by
    simp only [lexLt] at h1 h2
    by_cases hab : a < b
    · rw [if_pos hab] at h1
      exact absurd h1 (by simp)
    · by_cases hba : b < a
      · rw [if_pos hba] at h2
        exact absurd h2 (by simp)
      · rw [if_neg hab, if_neg hba] at h1
        rw [if_neg hba, if_neg hab] at h2
        have hab' : a = b := le_antisymm (not_lt.mp hba) (not_lt.mp hab)
        rw [hab', lexLt_conn as bs h1 h2]

/-- Python's `min` of two strings does not depend on the argument
order. -/
theorem lex_min_comm (a b : List Char) :
    (if lexLt b a then b else a) = (if lexLt a b then a else b) := by
  by_cases h : lexLt b a
  · rw [if_pos h, if_neg (by rw [lexLt_asymm b a h]; simp)]
  · by_cases h2 : lexLt a b
    · rw [if_neg h, if_pos h2]
    · rw [if_neg h, if_neg h2]
      exact (lexLt_conn b a (by simpa using h) (by simpa using h2)).symm

/-- Evaluation of the two-form minimum on a two-token list. -/
theorem normCore_pair (p q : List Char) :
    normCore [p, q] =
      (if lexLt (p ++ ' ' :: [q.headD ' ']) (q ++ ' ' :: [p.headD ' '])
       then p ++ ' ' :: [q.headD ' '] else q ++ ' ' :: [p.headD ' ']) := rfl

/-- C5 counterexample: "a-b" and "c" are two whitespace-delimited words,
but the hyphen splits "a-b" into two parts during cleaning, so the two
name orders produce different keys. -/
theorem normalize_name_swap_counterexample :
    normalize_name ("a-b" ++ " " ++ "c") ≠ normalize_name ("c" ++ " " ++ "a-b") := by
  decide

/-- C5 as amended: for a name of two whitespace-delimited words each of
which normalizes to a single non-empty part (no internal punctuation
that the cleaning step would turn into a separator), the two word orders
produce the identical key — in particular "Jean Dupont" and
"Dupont Jean" share their key. -/
theorem normalize_name_two_word_swap (w1 w2 : String) (p q : List Char)
    (h1 : nameTokens w1 = [p]) (h2 : nameTokens w2 = [q]) :
    normalize_name (w1 ++ " " ++ w2) = normalize_name (w2 ++ " " ++ w1) := by
  have key : ∀ (a b : String) (x y : List Char), nameTokens a = [x] → nameTokens b = [y] →
      nameTokens (a ++ " " ++ b) = [x, y] := by
    intro a b x y ha hb
    unfold nameTokens at ha hb ⊢
    rw [nameChars_append_space, splitWs_append_space, ha, hb]
    rfl
  unfold normalize_name
  rw [key w1 w2 p q h1 h2, key w2 w1 q p h2 h1]
  congr 1
  rw [normCore_pair p q, normCore_pair q p]
  exact lex_min_comm (q ++ ' ' :: [p.headD ' ']) (p ++ ' ' :: [q.headD ' '])

/-- Witness for C5's amended theorem at "Jean" / "Dupont". -/
theorem normalize_name_two_word_swap_witness :
    nameTokens "Jean" = [['j', 'e', 'a', 'n']] ∧
    nameTokens "Dupont" = [['d', 'u', 'p', 'o', 'n', 't']] ∧
    normalize_name ("Jean" ++ " " ++ "Dupont") = normalize_name ("Dupont" ++ " " ++ "Jean") :=
  ⟨by decide, by decide,
   normalize_name_two_word_swap "Jean" "Dupont" ['j', 'e', 'a', 'n']
     ['d', 'u', 'p', 'o', 'n', 't'] (by decide) (by decide)⟩

/-- One verifier step only appends to the reported pairs. -/
theorem invStep_pairs_extend (fns : List String)
    (st : List (String × String) × List (String × String)) (fn : String) :
    ∃ t, (invStep fns st fn).1 = st.1 ++ t := by
  cases hinv : invert_name fn with
  | none => exact ⟨[], by simp [invStep, hinv]⟩
  | some inv =>
    by_cases hc : inv ∈ fns ∧ (inv, fn) ∉ st.2
    · exact ⟨[(fn, inv)], by simp [invStep, hinv, if_pos hc]⟩
    · exact ⟨[], by simp [invStep, hinv, if_neg hc]⟩

/-- The verifier fold only appends to the reported pairs. -/
theorem foldl_invStep_pairs_extend (fns : List String) :
    ∀ (l : List String) (st : List (String × String) × List (String × String)),
      ∃ t, (l.foldl (invStep fns) st).1 = st.1 ++ t
  | [], st => ⟨[], by simp⟩
  | x :: rest, st => by
    rw [List.foldl_cons]
    obtain ⟨t1, h1⟩ := invStep_pairs_extend fns st x
    obtain ⟨t2, h2⟩ := foldl_invStep_pairs_extend fns rest (invStep fns st x)
    exact ⟨t1 ++ t2, by rw [h2, h1, List.append_assoc]⟩

/-- One verifier step preserves the loop invariant. -/
theorem invStep_preserves (fns : List String)
    (st : List (String × String) × List (String × String)) (fn : String)
    (hfn : fn ∈ fns) (h : InvariantInv fns st) :
    InvariantInv fns (invStep fns st fn) := by
  obtain ⟨hs, hcl, hpw⟩ := h
  cases hinv : invert_name fn with
  | none => simpa [invStep, hinv] using ⟨hs, hcl, hpw⟩
  | some inv =>
    by_cases hc : inv ∈ fns ∧ (inv, fn) ∉ st.2
    · have hnotP1 : (inv, fn) ∉ st.1 := fun hm => hc.2 ((hcl inv fn).mpr (Or.inl hm))
      have hnotP2 : (fn, inv) ∉ st.1 := fun hm => hc.2 ((hcl inv fn).mpr (Or.inr hm))
      simp only [invStep, hinv, if_pos hc]
      refine ⟨?_, ?_, ?_⟩
      · intro pr hpr
        rcases List.mem_append.mp hpr with hold | hnew
        · exact hs pr hold
        · rw [List.mem_singleton.mp hnew]
          exact ⟨hfn, hc.1, hinv⟩
      · intro x y
        constructor
        · intro hm
          rcases List.mem_append.mp hm with hold | hnew
          · rcases (hcl x y).mp hold with h1 | h1
            · exact Or.inl (List.mem_append_left _ h1)
            · exact Or.inr (List.mem_append_left _ h1)
          · rcases List.mem_cons.mp hnew with he | he
            · exact Or.inl (List.mem_append_right _ (by simp [he]))
            · have he' : (x, y) = (inv, fn) := List.mem_singleton.mp he
              refine Or.inr (List.mem_append_right _ ?_)
              rw [Prod.mk.injEq] at he'
              exact List.mem_singleton.mpr (by rw [he'.1, he'.2])
        · intro hm
          rcases hm with h1 | h1
          · rcases List.mem_append.mp h1 with hold | hnew
            · exact List.mem_append_left _ ((hcl x y).mpr (Or.inl hold))
            · exact List.mem_append_right _ (by simp [List.mem_singleton.mp hnew])
          · rcases List.mem_append.mp h1 with hold | hnew
            · exact List.mem_append_left _ ((hcl x y).mpr (Or.inr hold))
            · refine List.mem_append_right _ ?_
              have he' := List.mem_singleton.mp hnew
              rw [Prod.mk.injEq] at he'
              simp only [List.mem_cons, List.mem_singleton, Prod.mk.injEq]
              exact Or.inr (Or.inl ⟨he'.2, he'.1⟩)
      · rw [List.pairwise_append]
        refine ⟨hpw, List.pairwise_singleton _ _, ?_⟩
        intro p hp q hq
        rw [List.mem_singleton.mp hq]
        constructor
        · intro he
          rw [he] at hp
          exact hnotP2 hp
        · intro he
          rw [he] at hp
          exact hnotP1 hp
    · simpa [invStep, hinv, if_neg hc] using ⟨hs, hcl, hpw⟩

/-- The verifier fold preserves the loop invariant when it traverses
names from the FN list. -/
theorem foldl_invStep_preserves (fns : List String) :
    ∀ (l : List String), (∀ x ∈ l, x ∈ fns) →
      ∀ st, InvariantInv fns st → InvariantInv fns (l.foldl (invStep fns) st)
  | [], _, _, h => h
  | x :: rest, hl, st, h => by
    rw [List.foldl_cons]
    exact foldl_invStep_preserves fns rest (fun y hy => hl y (List.mem_cons_of_mem _ hy))
      _ (invStep_preserves fns st x (hl x (List.mem_cons_self x rest)) h)

/-- Completeness of the verifier fold: every name of the traversed part
whose inversion occurs in the FN list is reported, in one order or the
other. -/
theorem foldl_invStep_complete (fns : List String) :
    ∀ (l : List String), (∀ x ∈ l, x ∈ fns) →
      ∀ st, InvariantInv fns st →
      ∀ a b : String, a ∈ l → b ∈ fns → invert_name a = some b →
        (a, b) ∈ (l.foldl (invStep fns) st).1 ∨ (b, a) ∈ (l.foldl (invStep fns) st).1
  | [], _, _, _, a, _, ha, _, _ => absurd ha (List.not_mem_nil a)
  | x :: rest, hl, st, h, a, b, ha, hb, hinv => by
    rw [List.foldl_cons]
    rcases List.mem_cons.mp ha with rfl | hatail
    · obtain ⟨t, hext⟩ := foldl_invStep_pairs_extend fns rest (invStep fns st a)
      obtain ⟨t0, h0⟩ := invStep_pairs_extend fns st a
      by_cases hc : (b, a) ∈ st.2
      · rcases (h.2.1 b a).mp hc with hm | hm
        · refine Or.inr ?_
          rw [hext, h0]
          exact List.mem_append_left _ (List.mem_append_left _ hm)
        · refine Or.inl ?_
          rw [hext, h0]
          exact List.mem_append_left _ (List.mem_append_left _ hm)
      · have hstep : (invStep fns st a).1 = st.1 ++ [(a, b)] := by
          simp [invStep, hinv, if_pos (And.intro hb hc)]
        refine Or.inl ?_
        rw [hext, hstep]
        exact List.mem_append_left _ (List.mem_append_right _ (List.mem_singleton.mpr rfl))
    · exact foldl_invStep_complete fns rest (fun y hy => hl y (List.mem_cons_of_mem _ hy))
        (invStep fns st x) (invStep_preserves fns st x (hl x (List.mem_cons_self x rest)) h)
        a b hatail hb hinv

/-- C6 counterexample: a name that equals its own word-reversal is
reported paired with itself — the members of a reported pair need not be
distinct. -/
theorem inverted_pairs_self_pair_counterexample :
    verify_inverted_fn_pairs ["a a"] = [("a a", "a a")] ∧
    ∃ pr ∈ verify_inverted_fn_pairs ["a a"], pr.1 = pr.2 :=
  ⟨by decide, ⟨("a a", "a a"), by decide, rfl⟩⟩

/-- C6 as amended: the detector reports, once each, exactly the pairs
(a, b) of FN values in the output such that b also occurs in the output
and b is the single-space join of a's whitespace tokens in reverse order
(a having at least two tokens) — including degenerate self-pairs where a
name equals its own word-reversal, so the members of a reported pair
need not be distinct; the detector only reads the FN list and mutates
no contact data (it is a pure function of the FN list in this model). -/
theorem verify_inverted_fn_pairs_exact (fns : List String) :
    (∀ pr ∈ verify_inverted_fn_pairs fns,
        pr.1 ∈ fns ∧ pr.2 ∈ fns ∧ invert_name pr.1 = some pr.2) ∧
    (∀ a b : String, a ∈ fns → b ∈ fns → invert_name a = some b →
        (a, b) ∈ verify_inverted_fn_pairs fns ∨ (b, a) ∈ verify_inverted_fn_pairs fns) ∧
    (verify_inverted_fn_pairs fns).Pairwise (fun pr qr => pr ≠ qr ∧ pr ≠ (qr.2, qr.1)) := by
  unfold verify_inverted_fn_pairs
  have hbase : InvariantInv fns ([], []) := ⟨by simp, by simp, by simp⟩
  obtain ⟨hs, _, hpw⟩ := foldl_invStep_preserves fns fns (fun _ hx => hx) ([], []) hbase
  exact ⟨hs, fun a b ha hb hinv =>
    foldl_invStep_complete fns fns (fun _ hx => hx) ([], []) hbase a b ha hb hinv, hpw⟩

/-- Witness for C6's amended theorem: the pair "Jean Dupont" /
"Dupont Jean" is reported in one of the two orders. -/
theorem verify_inverted_fn_pairs_exact_witness :
    ("Jean Dupont", "Dupont Jean") ∈
        verify_inverted_fn_pairs ["Jean Dupont", "Dupont Jean"] ∨
    ("Dupont Jean", "Jean Dupont") ∈
        verify_inverted_fn_pairs ["Jean Dupont", "Dupont Jean"] :=
  (verify_inverted_fn_pairs_exact ["Jean Dupont", "Dupont Jean"]).2.1
    "Jean Dupont" "Dupont Jean" (by decide) (by decide) (by decide)

end Cired
